import Mathlib

/-!
# A shallow embedding of the `rsbf` Brainfuck interpreter (`src/source/vm.rs`)

The Rust source has three stages:
* `lexer`: source text to `BFInstruction` tokens, dropping every other character;
* `parse` / `parse_internal`: tokens to a `VMInstruction` tree, folding runs of
  `+`/`-` into one `Increment` and runs of `>`/`<` into one `Move`, with
  permissive handling of unmatched brackets;
* `exec_vm_instructions` / `run`: a tree walk over a 30000-cell byte tape with a
  `usize` data pointer, wrapping cell arithmetic modulo 256 and pointer
  arithmetic modulo 2^64.

Machine integers are embedded as `Nat`/`Int` with explicit wrapping:
* `u8` cell values live in `Nat` and every write goes through `% 256` wrapping
  (`wrapAdd8`, mirroring `u8::wrapping_add_signed`);
* the `usize` pointer lives in `Nat` and wraps modulo `2 ^ 64`
  (`wrapAddUsize`, mirroring `usize::wrapping_add_signed`);
* `i8` / `isize` instruction payloads live in `Int` and are wrapped into their
  two's-complement range (`wrapI8`, `wrapI64`) exactly where the Rust code does
  wrapping arithmetic on them.

Rust panics (out-of-bounds tape indexing, `expect` on failed reads and writes)
are embedded as `none`; loops are executed with a step-index (`fuel`) counting
loop iterations, so that a diverging Rust execution corresponds to `none` for
every fuel.
-/

/-- The tape length fixed by the Rust source: `[u8; 30_000]`. -/
def tapeSize : Nat := 30000

/-- The modulus of the 64-bit `usize` pointer. -/
def usizeSize : Nat := 2 ^ 64

/-- Wrap an `Int` into the two's-complement range of `i8`, `[-128, 127]`.
This is what release-mode Rust `i8` addition does to the stored delta of an
`Increment` when runs of `+`/`-` are folded. -/
def wrapI8 (x : Int) : Int := (x + 128) % 256 - 128

/-- Wrap an `Int` into the two's-complement range of 64-bit `isize`. -/
def wrapI64 (x : Int) : Int := (x + 2 ^ 63) % 2 ^ 64 - 2 ^ 63

/-- `u8::wrapping_add_signed`: add a signed delta to a byte, modulo 256. -/
def wrapAdd8 (v : Nat) (d : Int) : Nat := (((v : Int) + d) % 256).toNat

/-- `usize::wrapping_add_signed`: add a signed offset to the pointer,
modulo `2 ^ 64`. -/
def wrapAddUsize (p : Nat) (d : Int) : Nat := (((p : Int) + d) % (usizeSize : Int)).toNat

/-- The eight recognized command tokens (`enum BFInstruction`). -/
inductive BFInstruction where
  | Increment
  | Decrement
  | MoveRight
  | MoveLeft
  | PutChar
  | ReadChar
  | JumpIfZero
  | JumpIfNotZero
deriving DecidableEq

/-- The folded instruction tree (`enum VMInstruction`).  `Increment` carries an
`i8` delta and `Move` an `isize` offset, both embedded as `Int`. -/
inductive VMInstruction where
  | Increment (amount : Int)
  | Move (amount : Int)
  | Print
  | Read
  | Loop (body : List VMInstruction)

/-- One character of source text, classified (the `match` inside `lexer`). -/
def lexChar (c : Char) : Option BFInstruction :=
  match c with
  | '+' => some .Increment
  | '-' => some .Decrement
  | '>' => some .MoveRight
  | '<' => some .MoveLeft
  | '.' => some .PutChar
  | ',' => some .ReadChar
  | '[' => some .JumpIfZero
  | ']' => some .JumpIfNotZero
  | _ => none

/-- `lexer`: keep the recognized characters, in order, and drop the rest. -/
def lexer (sourceCode : List Char) : List BFInstruction :=
  sourceCode.filterMap lexChar

/-- `infer_increment_direction`. -/
def inferIncrementDirection (bfInstruction : BFInstruction) : Int :=
  match bfInstruction with
  | .Increment => 1
  | .Decrement => -1
  | _ => 0

/-- `infer_move_direction`. -/
def inferMoveDirection (bfInstruction : BFInstruction) : Int :=
  match bfInstruction with
  | .MoveRight => 1
  | .MoveLeft => -1
  | _ => 0

/-- The parser's treatment of a `+`/`-` token: if the output currently ends in
an `Increment`, add the direction into it in place (with `i8` wrapping);
otherwise append a fresh `Increment` with the direction as delta. -/
def stepAdd (acc : List VMInstruction) (d : Int) : List VMInstruction :=
  match acc.getLast? with
  | some (.Increment k) => acc.dropLast ++ [.Increment (wrapI8 (k + d))]
  | _ => acc ++ [.Increment d]

/-- The parser's treatment of a `>`/`<` token, folding into a trailing `Move`. -/
def stepMove (acc : List VMInstruction) (d : Int) : List VMInstruction :=
  match acc.getLast? with
  | some (.Move k) => acc.dropLast ++ [.Move (wrapI64 (k + d))]
  | _ => acc ++ [.Move d]

/-- Whether the output sequence currently ends in an `Increment` (the test the
parser performs on `vm_instructions.last_mut()` for a `+`/`-` token). -/
def endsWithAdd (acc : List VMInstruction) : Bool :=
  match acc.getLast? with
  | some (.Increment _) => true
  | _ => false

/-- Whether the output sequence currently ends in a `Move`. -/
def endsWithMove (acc : List VMInstruction) : Bool :=
  match acc.getLast? with
  | some (.Move _) => true
  | _ => false

/-- `parse_internal`: scan the tokens left to right, extending the output
sequence `acc`, and return the final output together with the number of tokens
consumed (the Rust function's return value).  A `[` recursively parses the
suffix into a loop body and resumes after the tokens the recursive call
consumed; a `]` returns at once, counting itself as consumed. -/
def parseInternal : List BFInstruction → List VMInstruction → List VMInstruction × Nat
  | [], acc => (acc, 0)
  | t :: ts, acc =>
    match t with
    | .Increment | .Decrement =>
      let r := parseInternal ts (stepAdd acc (inferIncrementDirection t))
      (r.1, r.2 + 1)
    | .MoveRight | .MoveLeft =>
      let r := parseInternal ts (stepMove acc (inferMoveDirection t))
      (r.1, r.2 + 1)
    | .PutChar =>
      let r := parseInternal ts (acc ++ [.Print])
      (r.1, r.2 + 1)
    | .ReadChar =>
      let r := parseInternal ts (acc ++ [.Read])
      (r.1, r.2 + 1)
    | .JumpIfZero =>
      let inner := parseInternal ts []
      let r := parseInternal (ts.drop inner.2) (acc ++ [.Loop inner.1])
      (r.1, inner.2 + 1 + r.2)
    | .JumpIfNotZero => (acc, 1)
termination_by ts _ => ts.length
decreasing_by
  all_goals simp [List.length_drop]
  all_goals omega

/-- `parse`: run `parse_internal` on the whole token sequence with an empty
output and keep the instructions (the consumed count is dropped). -/
def parse (bfInstructions : List BFInstruction) : List VMInstruction :=
  (parseInternal bfInstructions []).1

/-- The executor's state: the tape, the data pointer, and the two byte
streams.  `input` is the remaining bytes the reader will produce; `output` is
the bytes written so far. -/
structure VMState where
  memory : Nat → Nat
  pointer : Nat
  input : List Nat
  output : List Nat

/-- Point update of the tape (`memory[p] = v`). -/
def updateMem (m : Nat → Nat) (p v : Nat) : Nat → Nat :=
  fun q => if q = p then v else m q

/-- `memory[*data_pointer]` as an r-value: in bounds it is the cell's value,
out of bounds the Rust indexing panics (`none`). -/
def readCell (st : VMState) : Option Nat :=
  if st.pointer < tapeSize then some (st.memory st.pointer) else none

/-- `memory[*data_pointer] = v`: in bounds the cell is replaced, out of bounds
the Rust indexing panics (`none`). -/
def writeCell (st : VMState) (v : Nat) : Option VMState :=
  if st.pointer < tapeSize then
    some { st with memory := updateMem st.memory st.pointer v }
  else
    none

/-- The bytes `write!(writer, "{}", b as char)` sends to the sink: the UTF-8
encoding of the Unicode scalar `b`.  For `b < 128` this is the single byte
`b`; for `128 ≤ b < 256` it is the two-byte sequence `0xC0 + b / 64`,
`0x80 + b % 64`. -/
def charBytes (b : Nat) : List Nat :=
  if b < 128 then [b] else [192 + b / 64, 128 + b % 64]

mutual

/-- Execute one `VMInstruction` (one arm of the `match` inside
`exec_vm_instructions`).  `fuel` bounds the number of loop iterations; a Rust
execution that diverges is `none` for every fuel, and panics are `none`. -/
def execI : Nat → VMInstruction → VMState → Option VMState
  | _, .Increment d, st =>
    match readCell st with
    | none => none
    | some v => writeCell st (wrapAdd8 v d)
  | _, .Move o, st => some { st with pointer := wrapAddUsize st.pointer o }
  | _, .Print, st =>
    match readCell st with
    | none => none
    | some v => some { st with output := st.output ++ charBytes v }
  | _, .Read, st =>
    match st.input with
    | [] => none
    | b :: rest => writeCell { st with input := rest } b
  | fuel, .Loop body, st =>
    match readCell st with
    | none => none
    | some v =>
      if v = 0 then some st
      else
        match fuel with
        | 0 => none
        | f + 1 =>
          match execL f body st with
          | none => none
          | some st' => execI f (.Loop body) st'
termination_by fuel i _ => (fuel, sizeOf i)

/-- Execute a sequence of instructions (the `for` loop of
`exec_vm_instructions`). -/
def execL : Nat → List VMInstruction → VMState → Option VMState
  | _, [], st => some st
  | fuel, i :: is, st =>
    match execI fuel i st with
    | none => none
    | some st' => execL fuel is st'
termination_by fuel is _ => (fuel, sizeOf is)

end

/-- The state `run` starts from: a zeroed tape, pointer `0`, a given input
stream and an empty output. -/
def initState (input : List Nat) : VMState :=
  { memory := fun _ => 0, pointer := 0, input := input, output := [] }

/-- `run`: execute the parsed program on a fresh tape. -/
def run (fuel : Nat) (vmInstructions : List VMInstruction) (input : List Nat) :
    Option VMState :=
  execL fuel vmInstructions (initState input)

/-- Net effect of a token run on the cell (`+1` per `+`, `-1` per `-`). -/
def netInc (ts : List BFInstruction) : Int :=
  (ts.map inferIncrementDirection).sum

/-- Net effect of a token run on the pointer (`+1` per `>`, `-1` per `<`). -/
def netMove (ts : List BFInstruction) : Int :=
  (ts.map inferMoveDirection).sum

/-- Modelled from the spec: the naive, unfolded interpretation of a single
arithmetic token, one token at a time — `+`/`-` replace the current cell with
`(cell ± 1) mod 256`, `>`/`<` replace the pointer with `(pointer ± 1)` wrapped
over the full addressable range.  This is the comparator the round-trip
property measures the folded pipeline against; I/O and bracket tokens are
outside its scope. -/
def naiveStep : BFInstruction → VMState → Option VMState
  | .Increment, st =>
    match readCell st with
    | none => none
    | some v => writeCell st ((v + 1) % 256)
  | .Decrement, st =>
    match readCell st with
    | none => none
    | some v => writeCell st ((v + 255) % 256)
  | .MoveRight, st => some { st with pointer := (st.pointer + 1) % usizeSize }
  | .MoveLeft, st => some { st with pointer := (st.pointer + (usizeSize - 1)) % usizeSize }
  | _, _ => none

/-- Modelled from the spec: direct simulation of a token sequence, one token
at a time, without folding. -/
def naiveRun : List BFInstruction → VMState → Option VMState
  | [], st => some st
  | t :: ts, st =>
    match naiveStep t st with
    | none => none
    | some st' => naiveRun ts st'

/-- A state whose current cell holds 128: the smallest cell value on which the
output sink receives more than one byte. -/
def c1State : VMState :=
  { memory := updateMem (fun _ => 0) 0 128, pointer := 0, input := [], output := [] }

/-- A state whose current cell holds 1, used to exercise the nonzero branch of
a loop. -/
def cellOneState : VMState :=
  { memory := updateMem (fun _ => 0) 0 1, pointer := 0, input := [], output := [] }

/-! ## Arithmetic of the wrapped additions -/

theorem wrapAdd8_wrapI8 (v : Nat) (d : Int) : wrapAdd8 v (wrapI8 d) = wrapAdd8 v d := by
  simp only [wrapAdd8, wrapI8]
  omega

theorem wrapAdd8_add (v : Nat) (k d : Int) :
    wrapAdd8 (wrapAdd8 v k) d = wrapAdd8 v (k + d) := by
  simp only [wrapAdd8]
  omega

theorem wrapAdd8_one (v : Nat) : wrapAdd8 v 1 = (v + 1) % 256 := by
  simp only [wrapAdd8]
  omega

theorem wrapAdd8_neg_one (v : Nat) : wrapAdd8 v (-1) = (v + 255) % 256 := by
  simp only [wrapAdd8]
  omega

theorem usizeSize_int : (usizeSize : Int) = 18446744073709551616 := by
  simp only [usizeSize]
  norm_num

theorem wrapAddUsize_wrapI64 (p : Nat) (d : Int) :
    wrapAddUsize p (wrapI64 d) = wrapAddUsize p d := by
  have h63 : (2 : Int) ^ 63 = 9223372036854775808 := by norm_num
  have h64 : (2 : Int) ^ 64 = 18446744073709551616 := by norm_num
  simp only [wrapAddUsize, wrapI64, usizeSize_int, h63, h64]
  omega

theorem wrapAddUsize_add (p : Nat) (k d : Int) :
    wrapAddUsize (wrapAddUsize p k) d = wrapAddUsize p (k + d) := by
  simp only [wrapAddUsize, usizeSize_int]
  omega

theorem wrapAddUsize_one (p : Nat) : wrapAddUsize p 1 = (p + 1) % usizeSize := by
  have h : usizeSize = 18446744073709551616 := by simp [usizeSize]
  simp only [wrapAddUsize, usizeSize_int, h]
  omega

theorem wrapAddUsize_neg_one (p : Nat) :
    wrapAddUsize p (-1) = (p + (usizeSize - 1)) % usizeSize := by
  have h : usizeSize = 18446744073709551616 := by simp [usizeSize]
  simp only [wrapAddUsize, usizeSize_int, h]
  omega

/-! ## The tape update -/

theorem updateMem_self (m : Nat → Nat) (p v : Nat) : updateMem m p v p = v := by
  simp [updateMem]

theorem updateMem_ne (m : Nat → Nat) (p v q : Nat) (h : q ≠ p) :
    updateMem m p v q = m q := by
  simp [updateMem, h]

theorem updateMem_updateMem (m : Nat → Nat) (p a b : Nat) :
    updateMem (updateMem m p a) p b = updateMem m p b := by
  funext q
  by_cases h : q = p <;> simp [updateMem, h]

/-! ## Characterizations of the executor, one instruction at a time -/

theorem execL_nil (fuel : Nat) (st : VMState) : execL fuel [] st = some st := by
  simp [execL]

theorem execL_cons (fuel : Nat) (i : VMInstruction) (is : List VMInstruction)
    (st : VMState) :
    execL fuel (i :: is) st = (execI fuel i st).bind (execL fuel is) := by
  cases h : execI fuel i st <;> simp [execL, h]

theorem execL_append (fuel : Nat) (xs ys : List VMInstruction) (st : VMState) :
    execL fuel (xs ++ ys) st = (execL fuel xs st).bind (execL fuel ys) := by
  induction xs generalizing st with
  | nil => simp [execL_nil]
  | cons i is ih =>
    simp only [List.cons_append, execL_cons]
    cases execI fuel i st <;> simp [ih]

theorem execL_singleton (fuel : Nat) (i : VMInstruction) (st : VMState) :
    execL fuel [i] st = execI fuel i st := by
  rw [execL_cons]
  cases execI fuel i st <;> simp [execL_nil]

theorem execI_increment (fuel : Nat) (d : Int) (st : VMState)
    (h : st.pointer < tapeSize) :
    execI fuel (.Increment d) st =
      some { st with memory := updateMem st.memory st.pointer (wrapAdd8 (st.memory st.pointer) d) } := by
  simp [execI, readCell, writeCell, h]

theorem execI_increment_oob (fuel : Nat) (d : Int) (st : VMState)
    (h : ¬ st.pointer < tapeSize) :
    execI fuel (.Increment d) st = none := by
  simp [execI, readCell, h]

theorem execI_move (fuel : Nat) (o : Int) (st : VMState) :
    execI fuel (.Move o) st = some { st with pointer := wrapAddUsize st.pointer o } := by
  simp [execI]

theorem execI_print (fuel : Nat) (st : VMState) (h : st.pointer < tapeSize) :
    execI fuel .Print st =
      some { st with output := st.output ++ charBytes (st.memory st.pointer) } := by
  simp [execI, readCell, h]

theorem execI_print_oob (fuel : Nat) (st : VMState) (h : ¬ st.pointer < tapeSize) :
    execI fuel .Print st = none := by
  simp [execI, readCell, h]

theorem execI_read_nil (fuel : Nat) (st : VMState) (h : st.input = []) :
    execI fuel .Read st = none := by
  simp [execI, h]

theorem execI_read_cons (fuel : Nat) (st : VMState) (b : Nat) (rest : List Nat)
    (h : st.input = b :: rest) (hp : st.pointer < tapeSize) :
    execI fuel .Read st =
      some { st with memory := updateMem st.memory st.pointer b, input := rest } := by
  simp [execI, h, writeCell, hp]

theorem execI_loop_zero (fuel : Nat) (body : List VMInstruction) (st : VMState)
    (hp : st.pointer < tapeSize) (hz : st.memory st.pointer = 0) :
    execI fuel (.Loop body) st = some st := by
  cases fuel <;> simp [execI, readCell, hp, hz]

theorem execI_loop_succ (fuel : Nat) (body : List VMInstruction) (st : VMState)
    (hp : st.pointer < tapeSize) (hnz : st.memory st.pointer ≠ 0) :
    execI (fuel + 1) (.Loop body) st =
      (execL fuel body st).bind (execI fuel (.Loop body)) := by
  cases h : execL fuel body st <;> simp [execI, readCell, hp, hnz, h]

/-! ## The parser, one token at a time -/

theorem parseInternal_nil (acc : List VMInstruction) :
    parseInternal [] acc = (acc, 0) := by
  simp [parseInternal]

theorem parseInternal_inc (ts : List BFInstruction) (acc : List VMInstruction) :
    parseInternal (.Increment :: ts) acc =
      ((parseInternal ts (stepAdd acc 1)).1, (parseInternal ts (stepAdd acc 1)).2 + 1) := by
  simp [parseInternal, inferIncrementDirection]

theorem parseInternal_dec (ts : List BFInstruction) (acc : List VMInstruction) :
    parseInternal (.Decrement :: ts) acc =
      ((parseInternal ts (stepAdd acc (-1))).1, (parseInternal ts (stepAdd acc (-1))).2 + 1) := by
  simp [parseInternal, inferIncrementDirection]

theorem parseInternal_mvr (ts : List BFInstruction) (acc : List VMInstruction) :
    parseInternal (.MoveRight :: ts) acc =
      ((parseInternal ts (stepMove acc 1)).1, (parseInternal ts (stepMove acc 1)).2 + 1) := by
  simp [parseInternal, inferMoveDirection]

theorem parseInternal_mvl (ts : List BFInstruction) (acc : List VMInstruction) :
    parseInternal (.MoveLeft :: ts) acc =
      ((parseInternal ts (stepMove acc (-1))).1, (parseInternal ts (stepMove acc (-1))).2 + 1) := by
  simp [parseInternal, inferMoveDirection]

theorem parseInternal_put (ts : List BFInstruction) (acc : List VMInstruction) :
    parseInternal (.PutChar :: ts) acc =
      ((parseInternal ts (acc ++ [.Print])).1, (parseInternal ts (acc ++ [.Print])).2 + 1) := by
  simp [parseInternal]

theorem parseInternal_readtok (ts : List BFInstruction) (acc : List VMInstruction) :
    parseInternal (.ReadChar :: ts) acc =
      ((parseInternal ts (acc ++ [.Read])).1, (parseInternal ts (acc ++ [.Read])).2 + 1) := by
  simp [parseInternal]

theorem parseInternal_jz (ts : List BFInstruction) (acc : List VMInstruction) :
    parseInternal (.JumpIfZero :: ts) acc =
      ((parseInternal (ts.drop (parseInternal ts []).2) (acc ++ [.Loop (parseInternal ts []).1])).1,
        (parseInternal ts []).2 + 1 +
          (parseInternal (ts.drop (parseInternal ts []).2) (acc ++ [.Loop (parseInternal ts []).1])).2) := by
  simp [parseInternal]

theorem parseInternal_jnz (ts : List BFInstruction) (acc : List VMInstruction) :
    parseInternal (.JumpIfNotZero :: ts) acc = (acc, 1) := by
  simp [parseInternal]

/-! ## The folding step on the output sequence -/

theorem stepAdd_concat (acc : List VMInstruction) (k d : Int) :
    stepAdd (acc ++ [.Increment k]) d = acc ++ [.Increment (wrapI8 (k + d))] := by
  simp [stepAdd, List.getLast?_concat, List.dropLast_concat]

theorem stepAdd_push (acc : List VMInstruction) (d : Int) (h : endsWithAdd acc = false) :
    stepAdd acc d = acc ++ [.Increment d] := by
  simp only [stepAdd, endsWithAdd] at *
  cases hl : acc.getLast? with
  | none => simp [hl]
  | some i => cases i <;> simp_all

theorem stepMove_concat (acc : List VMInstruction) (k d : Int) :
    stepMove (acc ++ [.Move k]) d = acc ++ [.Move (wrapI64 (k + d))] := by
  simp [stepMove, List.getLast?_concat, List.dropLast_concat]

theorem stepMove_push (acc : List VMInstruction) (d : Int) (h : endsWithMove acc = false) :
    stepMove acc d = acc ++ [.Move d] := by
  simp only [stepMove, endsWithMove] at *
  cases hl : acc.getLast? with
  | none => simp [hl]
  | some i => cases i <;> simp_all

/-! ## Folding a whole run of arithmetic tokens into one instruction -/

theorem netInc_cons (t : BFInstruction) (ts : List BFInstruction) :
    netInc (t :: ts) = inferIncrementDirection t + netInc ts := by
  simp [netInc]

theorem netMove_cons (t : BFInstruction) (ts : List BFInstruction) :
    netMove (t :: ts) = inferMoveDirection t + netMove ts := by
  simp [netMove]

theorem wrapI8_absorb (a b : Int) : wrapI8 (wrapI8 a + b) = wrapI8 (a + b) := by
  simp only [wrapI8]
  omega

theorem wrapI64_absorb (a b : Int) : wrapI64 (wrapI64 a + b) = wrapI64 (a + b) := by
  have h63 : (2 : Int) ^ 63 = 9223372036854775808 := by norm_num
  have h64 : (2 : Int) ^ 64 = 18446744073709551616 := by norm_num
  simp only [wrapI64, h63, h64]
  omega

theorem parseInternal_addRun (run : List BFInstruction) :
    ∀ (t : BFInstruction) (acc : List VMInstruction) (k : Int) (rest : List BFInstruction),
      (∀ u ∈ t :: run, u = BFInstruction.Increment ∨ u = BFInstruction.Decrement) →
      parseInternal ((t :: run) ++ rest) (acc ++ [.Increment k]) =
        ((parseInternal rest (acc ++ [.Increment (wrapI8 (k + netInc (t :: run)))])).1,
          run.length + 1 +
            (parseInternal rest (acc ++ [.Increment (wrapI8 (k + netInc (t :: run)))])).2) := by
  induction run with
  | nil =>
    intro t acc k rest h
    rcases h t (by simp) with ht | ht <;> subst ht
    · rw [List.cons_append, List.nil_append, parseInternal_inc, stepAdd_concat]
      have hn : wrapI8 (k + netInc [BFInstruction.Increment]) = wrapI8 (k + 1) := by
        simp [netInc, inferIncrementDirection]
      rw [hn]
      simp only [List.length_nil, Prod.mk.injEq]
      exact ⟨by trivial, by omega⟩
    · rw [List.cons_append, List.nil_append, parseInternal_dec, stepAdd_concat]
      have hn : wrapI8 (k + netInc [BFInstruction.Decrement]) = wrapI8 (k + -1) := by
        simp [netInc, inferIncrementDirection]
      rw [hn]
      simp only [List.length_nil, Prod.mk.injEq]
      exact ⟨by trivial, by omega⟩
  | cons u run' ih =>
    intro t acc k rest h
    have hrest : ∀ w ∈ u :: run', w = BFInstruction.Increment ∨ w = BFInstruction.Decrement := by
      intro w hw
      exact h w (by simp [hw])
    rcases h t (by simp) with ht | ht <;> subst ht
    · rw [List.cons_append, parseInternal_inc, stepAdd_concat,
        ih u acc (wrapI8 (k + 1)) rest hrest, wrapI8_absorb]
      have hn : wrapI8 (k + 1 + netInc (u :: run')) =
          wrapI8 (k + netInc (BFInstruction.Increment :: u :: run')) := by
        refine congrArg wrapI8 ?_
        rw [netInc_cons BFInstruction.Increment (u :: run')]
        show k + 1 + netInc (u :: run') = k + (1 + netInc (u :: run'))
        ring
      rw [hn]
      simp only [List.length_cons, Prod.mk.injEq]
      exact ⟨by trivial, by omega⟩
    · rw [List.cons_append, parseInternal_dec, stepAdd_concat,
        ih u acc (wrapI8 (k + -1)) rest hrest, wrapI8_absorb]
      have hn : wrapI8 (k + -1 + netInc (u :: run')) =
          wrapI8 (k + netInc (BFInstruction.Decrement :: u :: run')) := by
        refine congrArg wrapI8 ?_
        rw [netInc_cons BFInstruction.Decrement (u :: run')]
        show k + -1 + netInc (u :: run') = k + (-1 + netInc (u :: run'))
        ring
      rw [hn]
      simp only [List.length_cons, Prod.mk.injEq]
      exact ⟨by trivial, by omega⟩

theorem parseInternal_moveRun (run : List BFInstruction) :
    ∀ (t : BFInstruction) (acc : List VMInstruction) (k : Int) (rest : List BFInstruction),
      (∀ u ∈ t :: run, u = BFInstruction.MoveRight ∨ u = BFInstruction.MoveLeft) →
      parseInternal ((t :: run) ++ rest) (acc ++ [.Move k]) =
        ((parseInternal rest (acc ++ [.Move (wrapI64 (k + netMove (t :: run)))])).1,
          run.length + 1 +
            (parseInternal rest (acc ++ [.Move (wrapI64 (k + netMove (t :: run)))])).2) := by
  induction run with
  | nil =>
    intro t acc k rest h
    rcases h t (by simp) with ht | ht <;> subst ht
    · rw [List.cons_append, List.nil_append, parseInternal_mvr, stepMove_concat]
      have hn : wrapI64 (k + netMove [BFInstruction.MoveRight]) = wrapI64 (k + 1) := by
        simp [netMove, inferMoveDirection]
      rw [hn]
      simp only [List.length_nil, Prod.mk.injEq]
      exact ⟨by trivial, by omega⟩
    · rw [List.cons_append, List.nil_append, parseInternal_mvl, stepMove_concat]
      have hn : wrapI64 (k + netMove [BFInstruction.MoveLeft]) = wrapI64 (k + -1) := by
        simp [netMove, inferMoveDirection]
      rw [hn]
      simp only [List.length_nil, Prod.mk.injEq]
      exact ⟨by trivial, by omega⟩
  | cons u run' ih =>
    intro t acc k rest h
    have hrest : ∀ w ∈ u :: run', w = BFInstruction.MoveRight ∨ w = BFInstruction.MoveLeft := by
      intro w hw
      exact h w (by simp [hw])
    rcases h t (by simp) with ht | ht <;> subst ht
    · rw [List.cons_append, parseInternal_mvr, stepMove_concat,
        ih u acc (wrapI64 (k + 1)) rest hrest, wrapI64_absorb]
      have hn : wrapI64 (k + 1 + netMove (u :: run')) =
          wrapI64 (k + netMove (BFInstruction.MoveRight :: u :: run')) := by
        refine congrArg wrapI64 ?_
        rw [netMove_cons BFInstruction.MoveRight (u :: run')]
        show k + 1 + netMove (u :: run') = k + (1 + netMove (u :: run'))
        ring
      rw [hn]
      simp only [List.length_cons, Prod.mk.injEq]
      exact ⟨by trivial, by omega⟩
    · rw [List.cons_append, parseInternal_mvl, stepMove_concat,
        ih u acc (wrapI64 (k + -1)) rest hrest, wrapI64_absorb]
      have hn : wrapI64 (k + -1 + netMove (u :: run')) =
          wrapI64 (k + netMove (BFInstruction.MoveLeft :: u :: run')) := by
        refine congrArg wrapI64 ?_
        rw [netMove_cons BFInstruction.MoveLeft (u :: run')]
        show k + -1 + netMove (u :: run') = k + (-1 + netMove (u :: run'))
        ring
      rw [hn]
      simp only [List.length_cons, Prod.mk.injEq]
      exact ⟨by trivial, by omega⟩

/-! ## The executor against the naive, unfolded simulation -/

theorem execL_singleton_fun (fuel : Nat) (i : VMInstruction) :
    execL fuel [i] = execI fuel i :=
  funext (execL_singleton fuel i)

theorem execI_inc_one_fun (fuel : Nat) :
    execI fuel (.Increment 1) = naiveStep .Increment := by
  funext st
  by_cases h : st.pointer < tapeSize
  · rw [execI_increment fuel 1 st h]
    simp [naiveStep, readCell, writeCell, h, wrapAdd8_one]
  · rw [execI_increment_oob fuel 1 st h]
    simp [naiveStep, readCell, h]

theorem execI_dec_one_fun (fuel : Nat) :
    execI fuel (.Increment (-1)) = naiveStep .Decrement := by
  funext st
  by_cases h : st.pointer < tapeSize
  · rw [execI_increment fuel (-1) st h]
    simp [naiveStep, readCell, writeCell, h, wrapAdd8_neg_one]
  · rw [execI_increment_oob fuel (-1) st h]
    simp [naiveStep, readCell, h]

theorem execI_mvr_one_fun (fuel : Nat) :
    execI fuel (.Move 1) = naiveStep .MoveRight := by
  funext st
  rw [execI_move]
  simp [naiveStep, wrapAddUsize_one]

theorem execI_mvl_one_fun (fuel : Nat) :
    execI fuel (.Move (-1)) = naiveStep .MoveLeft := by
  funext st
  rw [execI_move]
  simp [naiveStep, wrapAddUsize_neg_one]

theorem execI_inc_merge (fuel : Nat) (k d : Int) (st : VMState) :
    execI fuel (.Increment (wrapI8 (k + d))) st =
      (execI fuel (.Increment k) st).bind (execI fuel (.Increment d)) := by
  by_cases h : st.pointer < tapeSize
  · rw [execI_increment fuel k st h]
    simp only [Option.some_bind]
    rw [execI_increment fuel (wrapI8 (k + d)) st h,
      execI_increment fuel d
        { st with memory := updateMem st.memory st.pointer (wrapAdd8 (st.memory st.pointer) k) } h]
    simp [updateMem_self, updateMem_updateMem, wrapAdd8_add, wrapAdd8_wrapI8]
  · rw [execI_increment_oob fuel (wrapI8 (k + d)) st h, execI_increment_oob fuel k st h]
    simp

theorem execI_move_merge (fuel : Nat) (k d : Int) (st : VMState) :
    execI fuel (.Move (wrapI64 (k + d))) st =
      (execI fuel (.Move k) st).bind (execI fuel (.Move d)) := by
  rw [execI_move fuel k st]
  simp only [Option.some_bind]
  rw [execI_move fuel (wrapI64 (k + d)) st,
    execI_move fuel d { st with pointer := wrapAddUsize st.pointer k }]
  simp [wrapAddUsize_add, wrapAddUsize_wrapI64]

theorem naiveRun_cons (t : BFInstruction) (ts : List BFInstruction) (st : VMState) :
    naiveRun (t :: ts) st = (naiveStep t st).bind (naiveRun ts) := by
  cases h : naiveStep t st <;> simp [naiveRun, h]

theorem execL_stepAdd_inc (fuel : Nat) (acc : List VMInstruction) (st : VMState) :
    execL fuel (stepAdd acc 1) st = (execL fuel acc st).bind (naiveStep .Increment) := by
  induction acc using List.reverseRecOn with
  | nil =>
    have hs : stepAdd [] (1 : Int) = [.Increment 1] := by simp [stepAdd]
    rw [hs, execL_singleton, execI_inc_one_fun, execL_nil]
    simp
  | append_singleton as a _ =>
    cases a with
    | Increment k =>
      rw [stepAdd_concat, execL_append, execL_append, execL_singleton_fun,
        execL_singleton_fun, Option.bind_assoc]
      refine Option.bind_congr fun s _ => ?_
      rw [← execI_inc_one_fun fuel, ← execI_inc_merge]
    | Move k =>
      have hs : stepAdd (as ++ [.Move k]) 1 = (as ++ [.Move k]) ++ [.Increment 1] := by
        simp [stepAdd, List.getLast?_concat]
      rw [hs, execL_append, execL_singleton_fun, execI_inc_one_fun]
    | Print =>
      have hs : stepAdd (as ++ [.Print]) 1 = (as ++ [.Print]) ++ [.Increment 1] := by
        simp [stepAdd, List.getLast?_concat]
      rw [hs, execL_append, execL_singleton_fun, execI_inc_one_fun]
    | Read =>
      have hs : stepAdd (as ++ [.Read]) 1 = (as ++ [.Read]) ++ [.Increment 1] := by
        simp [stepAdd, List.getLast?_concat]
      rw [hs, execL_append, execL_singleton_fun, execI_inc_one_fun]
    | Loop body =>
      have hs : stepAdd (as ++ [.Loop body]) 1 = (as ++ [.Loop body]) ++ [.Increment 1] := by
        simp [stepAdd, List.getLast?_concat]
      rw [hs, execL_append, execL_singleton_fun, execI_inc_one_fun]

theorem execL_stepAdd_dec (fuel : Nat) (acc : List VMInstruction) (st : VMState) :
    execL fuel (stepAdd acc (-1)) st = (execL fuel acc st).bind (naiveStep .Decrement) := by
  induction acc using List.reverseRecOn with
  | nil =>
    have hs : stepAdd [] (-1 : Int) = [.Increment (-1)] := by simp [stepAdd]
    rw [hs, execL_singleton, execI_dec_one_fun, execL_nil]
    simp
  | append_singleton as a _ =>
    cases a with
    | Increment k =>
      rw [stepAdd_concat, execL_append, execL_append, execL_singleton_fun,
        execL_singleton_fun, Option.bind_assoc]
      refine Option.bind_congr fun s _ => ?_
      rw [← execI_dec_one_fun fuel, ← execI_inc_merge]
    | Move k =>
      have hs : stepAdd (as ++ [.Move k]) (-1) = (as ++ [.Move k]) ++ [.Increment (-1)] := by
        simp [stepAdd, List.getLast?_concat]
      rw [hs, execL_append, execL_singleton_fun, execI_dec_one_fun]
    | Print =>
      have hs : stepAdd (as ++ [.Print]) (-1) = (as ++ [.Print]) ++ [.Increment (-1)] := by
        simp [stepAdd, List.getLast?_concat]
      rw [hs, execL_append, execL_singleton_fun, execI_dec_one_fun]
    | Read =>
      have hs : stepAdd (as ++ [.Read]) (-1) = (as ++ [.Read]) ++ [.Increment (-1)] := by
        simp [stepAdd, List.getLast?_concat]
      rw [hs, execL_append, execL_singleton_fun, execI_dec_one_fun]
    | Loop body =>
      have hs : stepAdd (as ++ [.Loop body]) (-1) = (as ++ [.Loop body]) ++ [.Increment (-1)] := by
        simp [stepAdd, List.getLast?_concat]
      rw [hs, execL_append, execL_singleton_fun, execI_dec_one_fun]

theorem execL_stepMove_right (fuel : Nat) (acc : List VMInstruction) (st : VMState) :
    execL fuel (stepMove acc 1) st = (execL fuel acc st).bind (naiveStep .MoveRight) := by
  induction acc using List.reverseRecOn with
  | nil =>
    have hs : stepMove [] (1 : Int) = [.Move 1] := by simp [stepMove]
    rw [hs, execL_singleton, execI_mvr_one_fun, execL_nil]
    simp
  | append_singleton as a _ =>
    cases a with
    | Move k =>
      rw [stepMove_concat, execL_append, execL_append, execL_singleton_fun,
        execL_singleton_fun, Option.bind_assoc]
      refine Option.bind_congr fun s _ => ?_
      rw [← execI_mvr_one_fun fuel, ← execI_move_merge]
    | Increment k =>
      have hs : stepMove (as ++ [.Increment k]) 1 = (as ++ [.Increment k]) ++ [.Move 1] := by
        simp [stepMove, List.getLast?_concat]
      rw [hs, execL_append, execL_singleton_fun, execI_mvr_one_fun]
    | Print =>
      have hs : stepMove (as ++ [.Print]) 1 = (as ++ [.Print]) ++ [.Move 1] := by
        simp [stepMove, List.getLast?_concat]
      rw [hs, execL_append, execL_singleton_fun, execI_mvr_one_fun]
    | Read =>
      have hs : stepMove (as ++ [.Read]) 1 = (as ++ [.Read]) ++ [.Move 1] := by
        simp [stepMove, List.getLast?_concat]
      rw [hs, execL_append, execL_singleton_fun, execI_mvr_one_fun]
    | Loop body =>
      have hs : stepMove (as ++ [.Loop body]) 1 = (as ++ [.Loop body]) ++ [.Move 1] := by
        simp [stepMove, List.getLast?_concat]
      rw [hs, execL_append, execL_singleton_fun, execI_mvr_one_fun]

theorem execL_stepMove_left (fuel : Nat) (acc : List VMInstruction) (st : VMState) :
    execL fuel (stepMove acc (-1)) st = (execL fuel acc st).bind (naiveStep .MoveLeft) := by
  induction acc using List.reverseRecOn with
  | nil =>
    have hs : stepMove [] (-1 : Int) = [.Move (-1)] := by simp [stepMove]
    rw [hs, execL_singleton, execI_mvl_one_fun, execL_nil]
    simp
  | append_singleton as a _ =>
    cases a with
    | Move k =>
      rw [stepMove_concat, execL_append, execL_append, execL_singleton_fun,
        execL_singleton_fun, Option.bind_assoc]
      refine Option.bind_congr fun s _ => ?_
      rw [← execI_mvl_one_fun fuel, ← execI_move_merge]
    | Increment k =>
      have hs : stepMove (as ++ [.Increment k]) (-1) = (as ++ [.Increment k]) ++ [.Move (-1)] := by
        simp [stepMove, List.getLast?_concat]
      rw [hs, execL_append, execL_singleton_fun, execI_mvl_one_fun]
    | Print =>
      have hs : stepMove (as ++ [.Print]) (-1) = (as ++ [.Print]) ++ [.Move (-1)] := by
        simp [stepMove, List.getLast?_concat]
      rw [hs, execL_append, execL_singleton_fun, execI_mvl_one_fun]
    | Read =>
      have hs : stepMove (as ++ [.Read]) (-1) = (as ++ [.Read]) ++ [.Move (-1)] := by
        simp [stepMove, List.getLast?_concat]
      rw [hs, execL_append, execL_singleton_fun, execI_mvl_one_fun]
    | Loop body =>
      have hs : stepMove (as ++ [.Loop body]) (-1) = (as ++ [.Loop body]) ++ [.Move (-1)] := by
        simp [stepMove, List.getLast?_concat]
      rw [hs, execL_append, execL_singleton_fun, execI_mvl_one_fun]

theorem parse_naive_sim (ts : List BFInstruction) :
    ∀ (acc : List VMInstruction) (fuel : Nat) (st : VMState),
      (∀ t ∈ ts, t = BFInstruction.Increment ∨ t = BFInstruction.Decrement ∨
        t = BFInstruction.MoveRight ∨ t = BFInstruction.MoveLeft) →
      execL fuel (parseInternal ts acc).1 st = (execL fuel acc st).bind (naiveRun ts) := by
  induction ts with
  | nil =>
    intro acc fuel st _
    rw [parseInternal_nil]
    cases execL fuel acc st <;> simp [naiveRun]
  | cons t ts' ih =>
    intro acc fuel st h
    have hts : ∀ u ∈ ts', u = BFInstruction.Increment ∨ u = BFInstruction.Decrement ∨
        u = BFInstruction.MoveRight ∨ u = BFInstruction.MoveLeft := by
      intro u hu
      exact h u (by simp [hu])
    rcases h t (by simp) with ht | ht | ht | ht <;> subst ht
    · rw [parseInternal_inc]
      dsimp only
      rw [ih (stepAdd acc 1) fuel st hts, execL_stepAdd_inc, Option.bind_assoc]
      refine (Option.bind_congr fun s _ => ?_).symm
      rw [naiveRun_cons]
    · rw [parseInternal_dec]
      dsimp only
      rw [ih (stepAdd acc (-1)) fuel st hts, execL_stepAdd_dec, Option.bind_assoc]
      refine (Option.bind_congr fun s _ => ?_).symm
      rw [naiveRun_cons]
    · rw [parseInternal_mvr]
      dsimp only
      rw [ih (stepMove acc 1) fuel st hts, execL_stepMove_right, Option.bind_assoc]
      refine (Option.bind_congr fun s _ => ?_).symm
      rw [naiveRun_cons]
    · rw [parseInternal_mvl]
      dsimp only
      rw [ih (stepMove acc (-1)) fuel st hts, execL_stepMove_left, Option.bind_assoc]
      refine (Option.bind_congr fun s _ => ?_).symm
      rw [naiveRun_cons]

/-! ## Permissive bracket handling in the parser -/

theorem parseInternal_stray_jnz (ts1 : List BFInstruction) :
    ∀ (ts2 : List BFInstruction) (acc : List VMInstruction),
      (∀ t ∈ ts1, t ≠ BFInstruction.JumpIfZero ∧ t ≠ BFInstruction.JumpIfNotZero) →
      (parseInternal (ts1 ++ BFInstruction.JumpIfNotZero :: ts2) acc).1 =
        (parseInternal ts1 acc).1 := by
  induction ts1 with
  | nil =>
    intro ts2 acc _
    rw [List.nil_append, parseInternal_jnz, parseInternal_nil]
  | cons t ts ih =>
    intro ts2 acc h
    have ht := h t (by simp)
    have hts : ∀ u ∈ ts, u ≠ BFInstruction.JumpIfZero ∧ u ≠ BFInstruction.JumpIfNotZero := by
      intro u hu
      exact h u (by simp [hu])
    cases t with
    | Increment =>
      rw [List.cons_append, parseInternal_inc, parseInternal_inc]
      exact ih ts2 _ hts
    | Decrement =>
      rw [List.cons_append, parseInternal_dec, parseInternal_dec]
      exact ih ts2 _ hts
    | MoveRight =>
      rw [List.cons_append, parseInternal_mvr, parseInternal_mvr]
      exact ih ts2 _ hts
    | MoveLeft =>
      rw [List.cons_append, parseInternal_mvl, parseInternal_mvl]
      exact ih ts2 _ hts
    | PutChar =>
      rw [List.cons_append, parseInternal_put, parseInternal_put]
      exact ih ts2 _ hts
    | ReadChar =>
      rw [List.cons_append, parseInternal_readtok, parseInternal_readtok]
      exact ih ts2 _ hts
    | JumpIfZero => exact absurd rfl ht.1
    | JumpIfNotZero => exact absurd rfl ht.2

theorem parseInternal_consumes_all (n : Nat) :
    ∀ (ts : List BFInstruction) (acc : List VMInstruction), ts.length ≤ n →
      BFInstruction.JumpIfNotZero ∉ ts →
      (parseInternal ts acc).2 = ts.length := by
  induction n with
  | zero =>
    intro ts acc hl _
    have hnil : ts = [] := List.eq_nil_of_length_eq_zero (Nat.le_zero.mp hl)
    subst hnil
    rw [parseInternal_nil]
    rfl
  | succ n ih =>
    intro ts acc hl hn
    cases ts with
    | nil =>
      rw [parseInternal_nil]
      rfl
    | cons t ts' =>
      have hl' : ts'.length ≤ n := by simpa using hl
      have hn' : BFInstruction.JumpIfNotZero ∉ ts' := by
        intro hx
        exact hn (by simp [hx])
      cases t with
      | Increment =>
        rw [parseInternal_inc]
        simp [ih ts' _ hl' hn']
      | Decrement =>
        rw [parseInternal_dec]
        simp [ih ts' _ hl' hn']
      | MoveRight =>
        rw [parseInternal_mvr]
        simp [ih ts' _ hl' hn']
      | MoveLeft =>
        rw [parseInternal_mvl]
        simp [ih ts' _ hl' hn']
      | PutChar =>
        rw [parseInternal_put]
        simp [ih ts' _ hl' hn']
      | ReadChar =>
        rw [parseInternal_readtok]
        simp [ih ts' _ hl' hn']
      | JumpIfZero =>
        rw [parseInternal_jz]
        rw [ih ts' [] hl' hn']
        simp [List.drop_length, parseInternal_nil]
      | JumpIfNotZero =>
        exact absurd (by simp) hn

/-! ## Push-state variants of the run-folding lemmas -/

theorem parseInternal_addRun_push (t : BFInstruction) (run rest : List BFInstruction)
    (acc : List VMInstruction)
    (hcls : ∀ u ∈ t :: run, u = BFInstruction.Increment ∨ u = BFInstruction.Decrement)
    (hacc : endsWithAdd acc = false) :
    parseInternal ((t :: run) ++ rest) acc =
      ((parseInternal rest (acc ++ [.Increment (wrapI8 (netInc (t :: run)))])).1,
        run.length + 1 +
          (parseInternal rest (acc ++ [.Increment (wrapI8 (netInc (t :: run)))])).2) := by
  cases run with
  | nil =>
    rcases hcls t (by simp) with ht | ht <;> subst ht
    · rw [List.cons_append, List.nil_append, parseInternal_inc, stepAdd_push acc 1 hacc]
      have hw : wrapI8 (netInc [BFInstruction.Increment]) = 1 := by decide
      rw [hw]
      simp only [List.length_nil, Prod.mk.injEq]
      exact ⟨by trivial, by omega⟩
    · rw [List.cons_append, List.nil_append, parseInternal_dec, stepAdd_push acc (-1) hacc]
      have hw : wrapI8 (netInc [BFInstruction.Decrement]) = -1 := by decide
      rw [hw]
      simp only [List.length_nil, Prod.mk.injEq]
      exact ⟨by trivial, by omega⟩
  | cons u run'' =>
    have hcls' : ∀ w ∈ u :: run'', w = BFInstruction.Increment ∨ w = BFInstruction.Decrement := by
      intro w hw
      exact hcls w (by simp [hw])
    rcases hcls t (by simp) with ht | ht <;> subst ht
    · rw [List.cons_append, parseInternal_inc, stepAdd_push acc 1 hacc,
        parseInternal_addRun run'' u acc 1 rest hcls']
      have hw : wrapI8 (1 + netInc (u :: run'')) =
          wrapI8 (netInc (BFInstruction.Increment :: u :: run'')) := by
        rw [netInc_cons BFInstruction.Increment (u :: run'')]
        rfl
      rw [hw]
      simp only [List.length_cons, Prod.mk.injEq]
      exact ⟨by trivial, by omega⟩
    · rw [List.cons_append, parseInternal_dec, stepAdd_push acc (-1) hacc,
        parseInternal_addRun run'' u acc (-1) rest hcls']
      have hw : wrapI8 (-1 + netInc (u :: run'')) =
          wrapI8 (netInc (BFInstruction.Decrement :: u :: run'')) := by
        rw [netInc_cons BFInstruction.Decrement (u :: run'')]
        rfl
      rw [hw]
      simp only [List.length_cons, Prod.mk.injEq]
      exact ⟨by trivial, by omega⟩

theorem parseInternal_moveRun_push (t : BFInstruction) (run rest : List BFInstruction)
    (acc : List VMInstruction)
    (hcls : ∀ u ∈ t :: run, u = BFInstruction.MoveRight ∨ u = BFInstruction.MoveLeft)
    (hacc : endsWithMove acc = false) :
    parseInternal ((t :: run) ++ rest) acc =
      ((parseInternal rest (acc ++ [.Move (wrapI64 (netMove (t :: run)))])).1,
        run.length + 1 +
          (parseInternal rest (acc ++ [.Move (wrapI64 (netMove (t :: run)))])).2) := by
  cases run with
  | nil =>
    rcases hcls t (by simp) with ht | ht <;> subst ht
    · rw [List.cons_append, List.nil_append, parseInternal_mvr, stepMove_push acc 1 hacc]
      have hw : wrapI64 (netMove [BFInstruction.MoveRight]) = 1 := by decide
      rw [hw]
      simp only [List.length_nil, Prod.mk.injEq]
      exact ⟨by trivial, by omega⟩
    · rw [List.cons_append, List.nil_append, parseInternal_mvl, stepMove_push acc (-1) hacc]
      have hw : wrapI64 (netMove [BFInstruction.MoveLeft]) = -1 := by decide
      rw [hw]
      simp only [List.length_nil, Prod.mk.injEq]
      exact ⟨by trivial, by omega⟩
  | cons u run'' =>
    have hcls' : ∀ w ∈ u :: run'', w = BFInstruction.MoveRight ∨ w = BFInstruction.MoveLeft := by
      intro w hw
      exact hcls w (by simp [hw])
    rcases hcls t (by simp) with ht | ht <;> subst ht
    · rw [List.cons_append, parseInternal_mvr, stepMove_push acc 1 hacc,
        parseInternal_moveRun run'' u acc 1 rest hcls']
      have hw : wrapI64 (1 + netMove (u :: run'')) =
          wrapI64 (netMove (BFInstruction.MoveRight :: u :: run'')) := by
        rw [netMove_cons BFInstruction.MoveRight (u :: run'')]
        rfl
      rw [hw]
      simp only [List.length_cons, Prod.mk.injEq]
      exact ⟨by trivial, by omega⟩
    · rw [List.cons_append, parseInternal_mvl, stepMove_push acc (-1) hacc,
        parseInternal_moveRun run'' u acc (-1) rest hcls']
      have hw : wrapI64 (-1 + netMove (u :: run'')) =
          wrapI64 (netMove (BFInstruction.MoveLeft :: u :: run'')) := by
        rw [netMove_cons BFInstruction.MoveLeft (u :: run'')]
        rfl
      rw [hw]
      simp only [List.length_cons, Prod.mk.injEq]
      exact ⟨by trivial, by omega⟩

/-! ## Claims -/

/-- Claim C1, counterexample: with the current cell holding 128, executing
`Output` writes the two bytes `[194, 128]` (the UTF-8 encoding of U+0080) to
the sink, not the single byte `[128]` the claim asserts. -/
theorem c1_output_counterexample :
    (execI 0 .Print c1State).map (fun s => s.output) = some [194, 128] ∧
      (execI 0 .Print c1State).map (fun s => s.output) ≠ some [128] := by
  constructor
  · simp [execI, readCell, c1State, charBytes, updateMem, tapeSize]
  · simp [execI, readCell, c1State, charBytes, updateMem, tapeSize]

/-- Claim C1 (amended): every execution of `Output` appends the UTF-8 encoding
of the current cell's value to the output sink — exactly one byte, equal to
the cell value, when the value is in `[0, 127]`, and a two-byte sequence when
the value is in `[128, 255]`. -/
theorem c1_output_utf8 (fuel : Nat) (st st' : VMState)
    (h : execI fuel .Print st = some st') :
    st'.output = st.output ++ charBytes (st.memory st.pointer) ∧
      (st.memory st.pointer < 128 → st'.output = st.output ++ [st.memory st.pointer]) ∧
      (128 ≤ st.memory st.pointer → (charBytes (st.memory st.pointer)).length = 2) := by
  by_cases hp : st.pointer < tapeSize
  · rw [execI_print fuel st hp] at h
    have hst := Option.some.inj h
    subst hst
    refine ⟨rfl, ?_, ?_⟩
    · intro hlt
      simp [charBytes, hlt]
    · intro hge
      simp [charBytes, Nat.not_lt.mpr hge]
  · rw [execI_print_oob fuel st hp] at h
    exact Option.noConfusion h

/-- Claim C1, witness: the amended statement applied to the concrete state
whose current cell holds 128. -/
theorem c1_output_utf8_witness :
    ({ c1State with output := c1State.output ++ charBytes (c1State.memory c1State.pointer) }.output
        = c1State.output ++ charBytes (c1State.memory c1State.pointer)) ∧
      (c1State.memory c1State.pointer < 128 →
        { c1State with output := c1State.output ++ charBytes (c1State.memory c1State.pointer) }.output
          = c1State.output ++ [c1State.memory c1State.pointer]) ∧
      (128 ≤ c1State.memory c1State.pointer →
        (charBytes (c1State.memory c1State.pointer)).length = 2) :=
  c1_output_utf8 0 c1State _ (execI_print 0 c1State (by decide))

/-- Claim C2, counterexample: a `Shift` takes the pointer to `2 ^ 64 - 1`,
outside `[0, 30000)`, and executing the parse of the source `"<+"` then aborts
at the `Add`'s tape access — the out-of-range branch is reachable. -/
theorem c2_oob_counterexample :
    (execL 1 [VMInstruction.Move (-1)] (initState [])).map (fun s => s.pointer) =
        some (2 ^ 64 - 1) ∧
      execL 1 (parse (lexer ['<', '+'])) (initState []) = none := by
  constructor
  · rw [execL_singleton, execI_move]
    simp only [Option.map_some']
    congr 1
  · simp [lexer, lexChar, parse, parseInternal, stepAdd, stepMove, inferIncrementDirection,
      inferMoveDirection, execL, execI, readCell, writeCell, initState, wrapAddUsize,
      usizeSize, tapeSize]

/-- Claim C2 (amended): every tape-cell access that completes — by `Add`,
`Output`, `Input`, or the `Loop` zero-test — happens with the data pointer in
`[0, 30000)`; but the pointer is not kept in that range, so the out-of-range
branch is reachable and aborts the run (see the counterexample). -/
theorem c2_access_in_bounds :
    (∀ (fuel : Nat) (d : Int) (st st' : VMState),
        execI fuel (.Increment d) st = some st' → st.pointer < tapeSize) ∧
      (∀ (fuel : Nat) (st st' : VMState),
        execI fuel .Print st = some st' → st.pointer < tapeSize) ∧
      (∀ (fuel : Nat) (st st' : VMState),
        execI fuel .Read st = some st' → st.pointer < tapeSize) ∧
      (∀ (fuel : Nat) (body : List VMInstruction) (st st' : VMState),
        execI fuel (.Loop body) st = some st' → st.pointer < tapeSize) := by
  refine ⟨?_, ?_, ?_, ?_⟩
  · intro fuel d st st' h
    by_contra hp
    rw [execI_increment_oob fuel d st hp] at h
    exact Option.noConfusion h
  · intro fuel st st' h
    by_contra hp
    rw [execI_print_oob fuel st hp] at h
    exact Option.noConfusion h
  · intro fuel st st' h
    by_contra hp
    cases hi : st.input with
    | nil =>
      rw [execI_read_nil fuel st hi] at h
      exact Option.noConfusion h
    | cons b rest =>
      have hnone : execI fuel .Read st = none := by
        simp [execI, hi, writeCell, hp]
      rw [hnone] at h
      exact Option.noConfusion h
  · intro fuel body st st' h
    by_contra hp
    have hnone : execI fuel (.Loop body) st = none := by
      cases fuel <;> simp [execI, readCell, hp]
    rw [hnone] at h
    exact Option.noConfusion h

/-- Claim C2, witness: the amended statement applied to a successful `Add` at
the initial state. -/
theorem c2_access_in_bounds_witness : (initState []).pointer < tapeSize :=
  c2_access_in_bounds.1 0 1 (initState [])
    { initState [] with
        memory := updateMem (initState []).memory (initState []).pointer
          (wrapAdd8 ((initState []).memory (initState []).pointer) 1) }
    (execI_increment 0 1 (initState []) (by decide))

/-- Claim C3: executing `Add(d)` on a cell holding `v ∈ [0, 255]` replaces it
with `(v + d) mod 256`; in particular `255 + 1` wraps to `0` and `0 - 1` wraps
to `255`. -/
theorem c3_add_mod256 (fuel : Nat) (d : Int) (st : VMState)
    (hp : st.pointer < tapeSize) (_hv : st.memory st.pointer < 256) :
    execI fuel (.Increment d) st =
        some { st with
            memory := updateMem st.memory st.pointer
              ((((st.memory st.pointer : Int) + d) % 256).toNat) } ∧
      (st.memory st.pointer = 255 → d = 1 →
        (((st.memory st.pointer : Int) + d) % 256).toNat = 0) ∧
      (st.memory st.pointer = 0 → d = -1 →
        (((st.memory st.pointer : Int) + d) % 256).toNat = 255) := by
  refine ⟨?_, ?_, ?_⟩
  · rw [execI_increment fuel d st hp]
    rfl
  · intro h255 h1
    rw [h255, h1]
    decide
  · intro h0 hm1
    rw [h0, hm1]
    decide

/-- Claim C3, witness: `Add(-1)` on the zeroed initial state. -/
theorem c3_add_mod256_witness :
    (initState []).pointer < tapeSize ∧
      ((initState []).memory (initState []).pointer < 256 ∧
        (execI 0 (.Increment (-1)) (initState []) =
            some { initState [] with
                memory := updateMem (initState []).memory (initState []).pointer
                  (((((initState []).memory (initState []).pointer : Int) + (-1)) % 256).toNat) } ∧
          ((initState []).memory (initState []).pointer = 255 → (-1 : Int) = 1 →
            ((((initState []).memory (initState []).pointer : Int) + (-1)) % 256).toNat = 0) ∧
          ((initState []).memory (initState []).pointer = 0 → (-1 : Int) = -1 →
            ((((initState []).memory (initState []).pointer : Int) + (-1)) % 256).toNat = 255))) :=
  ⟨by decide, by decide, c3_add_mod256 0 (-1) (initState []) (by decide) (by decide)⟩

/-- Claim C4: executing `Shift(o)` replaces the pointer `p` with `(p + o)`
wrapped modulo `2 ^ 64` — the full `usize` range — and not modulo the tape
length 30000: at `p = 0`, `o = -1` the two moduli disagree. -/
theorem c4_shift_wraps_usize :
    (∀ (fuel : Nat) (o : Int) (st : VMState),
        execI fuel (.Move o) st =
          some { st with pointer := (((st.pointer : Int) + o) % (usizeSize : Int)).toNat }) ∧
      usizeSize = 2 ^ 64 ∧
      (((0 : Int) + (-1)) % (usizeSize : Int)).toNat = 2 ^ 64 - 1 ∧
      (((0 : Int) + (-1)) % (usizeSize : Int)).toNat ≠ (((0 : Int) + (-1)) % 30000).toNat := by
  refine ⟨fun fuel o st => ?_, rfl, by decide, by decide⟩
  rw [execI_move]
  rfl

/-- Claim C5: a maximal run of `n ≥ 1` adjacent increment/decrement tokens is
parsed into exactly one `Add` instruction carrying the run's net effect (with
`i8` wrapping), never `n` instructions, and a maximal run of move tokens is
parsed into exactly one `Shift` likewise: parsing `run ++ rest` appends one
instruction for the whole run and continues on `rest`. -/
theorem c5_single_instruction_folding :
    (∀ (run rest : List BFInstruction) (acc : List VMInstruction),
        run ≠ [] →
        (∀ t ∈ run, t = BFInstruction.Increment ∨ t = BFInstruction.Decrement) →
        endsWithAdd acc = false →
        (∀ t, rest.head? = some t →
          ¬(t = BFInstruction.Increment ∨ t = BFInstruction.Decrement)) →
        parseInternal (run ++ rest) acc =
          ((parseInternal rest (acc ++ [.Increment (wrapI8 (netInc run))])).1,
            run.length +
              (parseInternal rest (acc ++ [.Increment (wrapI8 (netInc run))])).2)) ∧
      (∀ (run rest : List BFInstruction) (acc : List VMInstruction),
        run ≠ [] →
        (∀ t ∈ run, t = BFInstruction.MoveRight ∨ t = BFInstruction.MoveLeft) →
        endsWithMove acc = false →
        (∀ t, rest.head? = some t →
          ¬(t = BFInstruction.MoveRight ∨ t = BFInstruction.MoveLeft)) →
        parseInternal (run ++ rest) acc =
          ((parseInternal rest (acc ++ [.Move (wrapI64 (netMove run))])).1,
            run.length +
              (parseInternal rest (acc ++ [.Move (wrapI64 (netMove run))])).2)) := by
  constructor
  · intro run rest acc hne hcls hacc _
    obtain ⟨t, run', rfl⟩ : ∃ t run', run = t :: run' := by
      cases run with
      | nil => exact absurd rfl hne
      | cons a as => exact ⟨a, as, rfl⟩
    rw [parseInternal_addRun_push t run' rest acc hcls hacc]
    simp only [List.length_cons, Prod.mk.injEq]
  · intro run rest acc hne hcls hacc _
    obtain ⟨t, run', rfl⟩ : ∃ t run', run = t :: run' := by
      cases run with
      | nil => exact absurd rfl hne
      | cons a as => exact ⟨a, as, rfl⟩
    rw [parseInternal_moveRun_push t run' rest acc hcls hacc]
    simp only [List.length_cons, Prod.mk.injEq]

/-- Claim C5, witness: the run `++-` before a `.` folds to one `Add`, and the
run `><<` before a `,` folds to one `Shift`. -/
theorem c5_single_instruction_folding_witness :
    (parseInternal
          ([BFInstruction.Increment, BFInstruction.Increment, BFInstruction.Decrement] ++
            [BFInstruction.PutChar]) [] =
        ((parseInternal [BFInstruction.PutChar]
            ([] ++ [.Increment (wrapI8 (netInc
              [BFInstruction.Increment, BFInstruction.Increment, BFInstruction.Decrement]))])).1,
          [BFInstruction.Increment, BFInstruction.Increment, BFInstruction.Decrement].length +
            (parseInternal [BFInstruction.PutChar]
              ([] ++ [.Increment (wrapI8 (netInc
                [BFInstruction.Increment, BFInstruction.Increment, BFInstruction.Decrement]))])).2)) ∧
      (parseInternal
          ([BFInstruction.MoveRight, BFInstruction.MoveLeft, BFInstruction.MoveLeft] ++
            [BFInstruction.ReadChar]) [] =
        ((parseInternal [BFInstruction.ReadChar]
            ([] ++ [.Move (wrapI64 (netMove
              [BFInstruction.MoveRight, BFInstruction.MoveLeft, BFInstruction.MoveLeft]))])).1,
          [BFInstruction.MoveRight, BFInstruction.MoveLeft, BFInstruction.MoveLeft].length +
            (parseInternal [BFInstruction.ReadChar]
              ([] ++ [.Move (wrapI64 (netMove
                [BFInstruction.MoveRight, BFInstruction.MoveLeft, BFInstruction.MoveLeft]))])).2)) :=
  ⟨c5_single_instruction_folding.1 _ _ [] (by decide) (by decide) (by decide)
      (by intro t ht; simp at ht; subst ht; decide),
    c5_single_instruction_folding.2 _ _ [] (by decide) (by decide) (by decide)
      (by intro t ht; simp at ht; subst ht; decide)⟩

/-- Claim C6: `Loop(body)` re-checks the current cell before each iteration —
if the cell is zero the loop leaves the whole state (tape and pointer)
unchanged; if it is nonzero the whole body runs once and the loop is
re-entered on the resulting state. -/
theorem c6_loop_semantics :
    (∀ (fuel : Nat) (body : List VMInstruction) (st : VMState),
        st.pointer < tapeSize → st.memory st.pointer = 0 →
        execI fuel (.Loop body) st = some st) ∧
      (∀ (fuel : Nat) (body : List VMInstruction) (st : VMState),
        st.pointer < tapeSize → st.memory st.pointer ≠ 0 →
        execI (fuel + 1) (.Loop body) st =
          (execL fuel body st).bind (execI fuel (.Loop body))) :=
  ⟨fun fuel body st hp hz => execI_loop_zero fuel body st hp hz,
    fun fuel body st hp hnz => execI_loop_succ fuel body st hp hnz⟩

/-- Claim C6, witness: a loop skipped on a zero cell and a loop entered on a
cell holding 1. -/
theorem c6_loop_semantics_witness :
    (execI 5 (.Loop [.Increment 1]) (initState []) = some (initState [])) ∧
      (execI 1 (.Loop [.Increment (-1)]) cellOneState =
        (execL 0 [.Increment (-1)] cellOneState).bind (execI 0 (.Loop [.Increment (-1)]))) :=
  ⟨c6_loop_semantics.1 5 [.Increment 1] (initState []) (by decide) rfl,
    c6_loop_semantics.2 0 [.Increment (-1)] cellOneState (by decide) (by decide)⟩

/-- Claim C7: an end-loop token with no open begin-loop ends the current parse
scope, silently discarding the rest of that scope, and a begin-loop token with
no matching end-loop consumes all remaining tokens into the loop's body; both
parse without any error. -/
theorem c7_permissive_brackets :
    (∀ (ts1 ts2 : List BFInstruction),
        (∀ t ∈ ts1, t ≠ BFInstruction.JumpIfZero ∧ t ≠ BFInstruction.JumpIfNotZero) →
        parse (ts1 ++ BFInstruction.JumpIfNotZero :: ts2) = parse ts1) ∧
      (∀ ts : List BFInstruction, BFInstruction.JumpIfNotZero ∉ ts →
        parse (BFInstruction.JumpIfZero :: ts) = [.Loop (parse ts)]) := by
  constructor
  · intro ts1 ts2 h
    exact parseInternal_stray_jnz ts1 ts2 [] h
  · intro ts h
    show (parseInternal (BFInstruction.JumpIfZero :: ts) []).1 = _
    rw [parseInternal_jz]
    dsimp only
    rw [parseInternal_consumes_all ts.length ts [] le_rfl h, List.drop_length,
      parseInternal_nil]
    rfl

/-- Claim C7, witness: `+].` parses as just `+`, and `[+` parses as a loop
containing the parse of `+`. -/
theorem c7_permissive_brackets_witness :
    (parse ([BFInstruction.Increment] ++ BFInstruction.JumpIfNotZero :: [BFInstruction.PutChar]) =
        parse [BFInstruction.Increment]) ∧
      (parse (BFInstruction.JumpIfZero :: [BFInstruction.Increment]) =
        [.Loop (parse [BFInstruction.Increment])]) :=
  ⟨c7_permissive_brackets.1 [BFInstruction.Increment] [BFInstruction.PutChar] (by decide),
    c7_permissive_brackets.2 [BFInstruction.Increment] (by decide)⟩

/-- Claim C8: `Input` takes exactly one byte off the input source and stores
it in the current cell; if the source is exhausted the run aborts — the cell
is never left unchanged as an EOF fallback. -/
theorem c8_input_one_byte :
    (∀ (fuel : Nat) (st : VMState), st.input = [] → execI fuel .Read st = none) ∧
      (∀ (fuel : Nat) (st : VMState) (b : Nat) (rest : List Nat),
        st.input = b :: rest → st.pointer < tapeSize →
        execI fuel .Read st =
          some { st with memory := updateMem st.memory st.pointer b, input := rest }) :=
  ⟨fun fuel st h => execI_read_nil fuel st h,
    fun fuel st b rest h hp => execI_read_cons fuel st b rest h hp⟩

/-- Claim C8, witness: reading on an empty source aborts; reading `65` stores
it in cell 0 and consumes it. -/
theorem c8_input_one_byte_witness :
    (execI 0 .Read (initState []) = none) ∧
      (execI 0 .Read (initState [65]) =
        some { initState [65] with
            memory := updateMem (initState [65]).memory (initState [65]).pointer 65,
            input := [] }) :=
  ⟨c8_input_one_byte.1 0 (initState []) rfl,
    c8_input_one_byte.2 0 (initState [65]) 65 [] rfl (by decide)⟩

/-- Claim C9: for source text whose recognized tokens are only
increment/decrement and move tokens, lexing, parsing and executing leaves the
tape equal to the tape produced by the naive one-token-at-a-time simulation of
the unfolded token sequence. -/
theorem c9_folded_matches_naive (src : List Char) (input : List Nat) (fuel : Nat)
    (h : ∀ t ∈ lexer src, t = BFInstruction.Increment ∨ t = BFInstruction.Decrement ∨
      t = BFInstruction.MoveRight ∨ t = BFInstruction.MoveLeft) :
    (run fuel (parse (lexer src)) input).map (fun s => s.memory) =
      (naiveRun (lexer src) (initState input)).map (fun s => s.memory) := by
  have hsim := parse_naive_sim (lexer src) [] fuel (initState input) h
  rw [execL_nil] at hsim
  simp only [Option.some_bind] at hsim
  show (execL fuel (parseInternal (lexer src) []).1 (initState input)).map (fun s => s.memory) = _
  rw [hsim]

/-- Claim C9, witness: the source `+x>++<-` (with `x` a comment character)
folded and executed gives the same tape as its naive simulation. -/
theorem c9_folded_matches_naive_witness :
    (run 0 (parse (lexer ['+', 'x', '>', '+', '+', '<', '-'])) []).map (fun s => s.memory) =
      (naiveRun (lexer ['+', 'x', '>', '+', '+', '<', '-']) (initState [])).map
        (fun s => s.memory) :=
  c9_folded_matches_naive ['+', 'x', '>', '+', '+', '<', '-'] [] 0 (by decide)

/-- Claim C10: each instruction's effect is confined to its own state
component — `Add` changes only the tape cell at the current pointer, `Shift`
changes no tape cell, and `Output` changes neither the tape nor the pointer. -/
theorem c10_frame_effects :
    (∀ (fuel : Nat) (d : Int) (st st' : VMState),
        execI fuel (.Increment d) st = some st' →
        st'.pointer = st.pointer ∧ ∀ q, q ≠ st.pointer → st'.memory q = st.memory q) ∧
      (∀ (fuel : Nat) (o : Int) (st st' : VMState),
        execI fuel (.Move o) st = some st' → st'.memory = st.memory) ∧
      (∀ (fuel : Nat) (st st' : VMState),
        execI fuel .Print st = some st' → st'.memory = st.memory ∧ st'.pointer = st.pointer) := by
  refine ⟨?_, ?_, ?_⟩
  · intro fuel d st st' h
    by_cases hp : st.pointer < tapeSize
    · rw [execI_increment fuel d st hp] at h
      have hst := Option.some.inj h
      subst hst
      exact ⟨rfl, fun q hq => updateMem_ne _ _ _ _ hq⟩
    · rw [execI_increment_oob fuel d st hp] at h
      exact Option.noConfusion h
  · intro fuel o st st' h
    rw [execI_move] at h
    have hst := Option.some.inj h
    subst hst
    rfl
  · intro fuel st st' h
    by_cases hp : st.pointer < tapeSize
    · rw [execI_print fuel st hp] at h
      have hst := Option.some.inj h
      subst hst
      exact ⟨rfl, rfl⟩
    · rw [execI_print_oob fuel st hp] at h
      exact Option.noConfusion h

/-- Claim C10, witness: a concrete `Shift` leaves the tape untouched and a
concrete `Output` leaves both tape and pointer untouched. -/
theorem c10_frame_effects_witness :
    ({ initState [] with pointer := wrapAddUsize (initState []).pointer 3 }.memory
        = (initState []).memory) ∧
      ({ c1State with
            output := c1State.output ++ charBytes (c1State.memory c1State.pointer) }.memory
          = c1State.memory ∧
        { c1State with
            output := c1State.output ++ charBytes (c1State.memory c1State.pointer) }.pointer
          = c1State.pointer) :=
  ⟨c10_frame_effects.2.1 0 3 (initState []) _ (execI_move 0 3 (initState [])),
    c10_frame_effects.2.2 0 c1State _ (execI_print 0 c1State (by decide))⟩
